import Mathlib

/-!
Verification development for the Owonero proof-of-work node
(`src/blockchain.rs`, `src/daemon.rs`, `src/config.rs`).

Rust `u64` values are modelled as `Nat` kept below `2^64`, with wrapping
arithmetic written out explicitly (`% 2^64`).  Rust `String` is modelled
as `List Char`; `Vec<u8>` as `List Nat` with entries below 256.  Fallible
operations (slice indexing that may panic, file loading that may fail)
return `Option`.  The SHA3-256 compression itself and the ECDSA-P256
signature check are external cryptographic primitives; where a claim does
not depend on their internals they are passed in as function parameters.
-/

/-- The modulus of Rust `u64` arithmetic, `2^64`. -/
def U64MOD : Nat := 18446744073709551616

/-- Rust `u64::wrapping_add`. -/
def wadd (x y : Nat) : Nat := (x + y) % U64MOD

/-- Rust `u64::wrapping_mul`. -/
def wmul (x y : Nat) : Nat := (x * y) % U64MOD

/-- Rust `u64::wrapping_sub` (both arguments assumed `< 2^64`). -/
def wsub (x y : Nat) : Nat := (x + U64MOD - y % U64MOD) % U64MOD

/-- Bitwise xor; on arguments `< 2^64` the result stays `< 2^64`. -/
def wxor (x y : Nat) : Nat := x ^^^ y

/-- Rust `u64::rotate_left`. -/
def rotl (x n : Nat) : Nat :=
  ((x <<< (n % 64)) ||| (x >>> (64 - n % 64))) % U64MOD

/-- Rust `u64::rotate_right`. -/
def rotr (x n : Nat) : Nat :=
  ((x >>> (n % 64)) ||| (x <<< (64 - n % 64))) % U64MOD

/-! ### RX/OWO scratchpad algorithm (`Blockchain::calculate_hash`)

The scratchpad is modelled as its view as little-endian 64-bit words
(`List Nat`, each entry `< 2^64`); the source requires the byte size to
be a multiple of 8 for this view (`sp_words = sp_len / 8`). -/

/-- The default 2 MiB scratchpad byte size constant `SCRATCHPAD_SIZE`. -/
def SCRATCHPAD_SIZE : Nat := 2 * 1024 * 1024

/-- The `L1_CACHE_SIZE` constant (16 KiB). -/
def L1_CACHE_SIZE : Nat := 16 * 1024

/-- The `L2_CACHE_SIZE` constant (256 KiB). -/
def L2_CACHE_SIZE : Nat := 256 * 1024

/-- The LCG multiplier used to fill the scratchpad. -/
def LCG_K : Nat := 6364136223846793005

/-- The scratchpad size chosen by `init_scratchpad`: the
`OWONERO_SCRATCHPAD_SIZE` environment value when it parses and is at
least 1024, else the 2 MiB default. -/
def initScratchpadSize (env : Option Nat) : Nat :=
  match env with
  | some v => if 1024 ≤ v then v else SCRATCHPAD_SIZE
  | none => SCRATCHPAD_SIZE

/-- State of the RX/OWO main loop: the three mixing registers and the
scratchpad words. -/
structure RxState where
  a : Nat
  b : Nat
  c : Nat
  sp : List Nat
  deriving Repr, DecidableEq

/-- The four scratchpad loads of one main-loop iteration
(`mem_val1`, `mem_val2`, `l1_val`, `l2_val`). -/
def rxLoads (s : RxState) (iteration : Nat) : Nat × Nat × Nat × Nat :=
  let spWords := s.sp.length
  let spLen := spWords * 8
  let idx1 := wmul (wadd s.a s.b) s.c % spWords
  let memVal1 := s.sp.getD idx1 0
  let idx2 := ((iteration * 8 + s.a % 1024) % spLen) / 8
  let memVal2 := s.sp.getD idx2 0
  let l1Idx := (s.a % (L1_CACHE_SIZE / 8)) % spWords
  let l1Val := s.sp.getD l1Idx 0
  let l2Idx := (s.b % (L2_CACHE_SIZE / 8)) % spWords
  let l2Val := s.sp.getD l2Idx 0
  (memVal1, memVal2, l1Val, l2Val)

/-- Register values after the mix operations and the non-linear mixing
step of one iteration (before the memory write-back). -/
def rxPostMix (s : RxState) (iteration : Nat) : Nat × Nat × Nat :=
  let (memVal1, memVal2, l1Val, l2Val) := rxLoads s iteration
  let a1 := wadd (wmul s.a memVal1) l1Val
  let b1 := wsub (wxor s.b memVal2) l2Val
  let c1 := wadd (rotl s.c (memVal1 % 64)) (wxor a1 b1)
  let a2 := wxor a1 (rotr a1 17)
  let b2 := wxor b1 (rotr b1 23)
  let c2 := wxor c1 (rotr c1 29)
  (a2, b2, c2)

/-- One full iteration of the RX/OWO main loop: loads, mixing,
scratchpad write-back, and the occasional block-byte entropy step. -/
def rxStep (blockBytes : List Nat) (iteration : Nat) (s : RxState) : RxState :=
  let (a2, b2, c2) := rxPostMix s iteration
  let writeIdx := wxor (wxor a2 b2) c2 % s.sp.length
  let writeVal := wmul (wadd a2 b2) c2
  let sp1 := s.sp.set writeIdx writeVal
  if iteration &&& 127 == 0 then
    let blockByte := blockBytes.getD (iteration % blockBytes.length) 0
    { a := wxor a2 blockByte
      b := wxor b2 (rotl blockByte 8)
      c := wxor c2 (rotl blockByte 16)
      sp := sp1 }
  else
    { a := a2, b := b2, c := c2, sp := sp1 }

/-- The main loop, iterations `k, k+1, …` for `fuel` steps. -/
def rxRunFrom (blockBytes : List Nat) : Nat → Nat → RxState → RxState
  | _, 0, s => s
  | k, fuel + 1, s => rxRunFrom blockBytes (k + 1) fuel (rxStep blockBytes k s)

/-- The main loop for `iterations` iterations starting at 0. -/
def rxRun (blockBytes : List Nat) (iterations : Nat) (s : RxState) : RxState :=
  rxRunFrom blockBytes 0 iterations s

/-- The scratchpad fill loop: starting at word index `i`, repeatedly
advance the LCG and overwrite the word at the current index, for `fuel`
consecutive word indices. -/
def fillLoop (rng i : Nat) : Nat → List Nat → List Nat
  | 0, sp => sp
  | fuel + 1, sp =>
    let rng1 := wadd (wmul rng LCG_K) 1
    let v := wxor (rng1 >>> 1) ((rng1 <<< 33) % U64MOD)
    fillLoop rng1 (i + 1) fuel (sp.set i v)

/-- The whole scratchpad fill (all `sp_len / 8` words overwritten in
place, starting from the seed-derived LCG state). -/
def rxFill (rng : Nat) (sp : List Nat) : List Nat :=
  fillLoop rng 0 sp.length sp

/-- The 8 little-endian bytes of a 64-bit value. -/
def u64le (x : Nat) : List Nat :=
  [x % 256, x / 256 % 256, x / 65536 % 256, x / 16777216 % 256,
   x / 4294967296 % 256, x / 1099511627776 % 256,
   x / 281474976710656 % 256, x / 72057594037927936 % 256]

/-- Byte view of the scratchpad words (little-endian per word). -/
def wordsToBytes (ws : List Nat) : List Nat := ws.flatMap u64le

/-- The byte offset of the `i`-th final scratchpad read:
`(a.wrapping_add(i as u64) % SCRATCHPAD_SIZE as u64) as usize` — note
the modulus is the 2 MiB *constant*, not the actual scratchpad length. -/
def finalReadIdx (a i : Nat) : Nat := wadd a i % SCRATCHPAD_SIZE

/-- The `final_input` buffer: `a_le ‖ b_le ‖ c_le ‖ preimage` followed by
32 scratchpad bytes; `none` when one of the 32 byte reads indexes past
the end of the scratchpad (a Rust panic). -/
def finalInputBytes (a b c : Nat) (blockBytes spBytes : List Nat) : Option (List Nat) :=
  let base := u64le a ++ u64le b ++ u64le c ++ blockBytes
  ((List.range 32).mapM fun i => spBytes.get? (finalReadIdx a i)).map
    fun reads => base ++ reads

/-- The full scratchpad computation of `calculate_hash`, from the four
64-bit words of the SHA3-256 seed to the `final_input` byte string (of
which the returned digest is the SHA3-256 hash, and hence a function).
`sp` is the reused per-thread scratchpad in whatever state the previous
invocation left it. -/
def calcHashInput (seed0 a0 b0 c0 : Nat) (blockBytes : List Nat)
    (iterations : Nat) (sp : List Nat) : Option (List Nat) :=
  let filled := rxFill seed0 sp
  let s := rxRun blockBytes iterations { a := a0, b := b0, c := c0, sp := filled }
  finalInputBytes s.a s.b s.c blockBytes (wordsToBytes s.sp)

/-! ### Hexadecimal encoding and decoding (the `hex` crate) -/

/-- Lowercase hex digit for a nibble (values above 15 cannot arise from
byte nibbles; they map to a non-digit placeholder). -/
def hexDigitChar (n : Nat) : Char :=
  match n with
  | 0 => '0' | 1 => '1' | 2 => '2' | 3 => '3'
  | 4 => '4' | 5 => '5' | 6 => '6' | 7 => '7'
  | 8 => '8' | 9 => '9' | 10 => 'a' | 11 => 'b'
  | 12 => 'c' | 13 => 'd' | 14 => 'e' | 15 => 'f'
  | _ => 'x'

/-- Lowercase hex encoding of a byte string (`hex::encode`). -/
def hexEncode (bytes : List Nat) : List Char :=
  bytes.flatMap fun b => [hexDigitChar (b / 16), hexDigitChar (b % 16)]

/-- Value of one hex digit character, `none` for a non-digit. -/
def hexVal (c : Char) : Option Nat :=
  if '0' ≤ c ∧ c ≤ '9' then some (c.toNat - 48)
  else if 'a' ≤ c ∧ c ≤ 'f' then some (c.toNat - 87)
  else if 'A' ≤ c ∧ c ≤ 'F' then some (c.toNat - 55)
  else none

/-- Hex decoding (`hex::decode`): fails on odd length or a non-digit. -/
def hexDecode : List Char → Option (List Nat)
  | [] => some []
  | [_] => none
  | c1 :: c2 :: rest =>
    match hexVal c1, hexVal c2, hexDecode rest with
    | some hi, some lo, some bs => some ((16 * hi + lo) :: bs)
    | _, _, _ => none

/-! ### The two difficulty tests -/

/-- Boolean string-starts-with (Rust `str::starts_with`), first argument
the pattern. -/
def startsWithChars : List Char → List Char → Bool
  | [], _ => true
  | _ :: _, [] => false
  | p :: ps, x :: xs => p == x && startsWithChars ps xs

/-- The miner's difficulty test (`mine_block_with_cancel`): the hex
digest starts with `difficulty` many `'0'` characters. -/
def minerPow (difficulty : Nat) (hashHex : List Char) : Bool :=
  startsWithChars (List.replicate difficulty '0') hashHex

/-- The validator's PoW loop body (`validate_block`): for byte indices
`i, i+1, …` (`fuel` of them), break returning `true` past the end of the
digest, and test the two nibbles of byte `i` against `difficulty`. -/
def powCheckLoop (difficulty : Nat) (hashBytes : List Nat) : Nat → Nat → Bool
  | _, 0 => true
  | i, fuel + 1 =>
    if hashBytes.length ≤ i then true
    else
      let byteVal := hashBytes.getD i 0
      if decide (2 * i < difficulty) && byteVal / 16 != 0 then false
      else if decide (2 * i + 1 < difficulty) && byteVal % 16 != 0 then false
      else powCheckLoop difficulty hashBytes (i + 1) fuel

/-- The validator's difficulty test: loop over the first
`(difficulty + 1) / 2` digest bytes. -/
def validatorPow (difficulty : Nat) (hashBytes : List Nat) : Bool :=
  powCheckLoop difficulty hashBytes 0 ((difficulty + 1) / 2)

/-- Nibble `j` of a byte string: high nibble of byte `j/2` for even `j`,
low nibble for odd `j`. -/
def nthNibble (bytes : List Nat) (j : Nat) : Nat :=
  if j % 2 == 0 then bytes.getD (j / 2) 0 / 16 else bytes.getD (j / 2) 0 % 16

/-! ### Data model (`Block`, `Transaction`, `Blockchain`) -/

/-- Rust strings are modelled as lists of characters. -/
abbrev Str := List Char

/-- The Unicode `White_Space` characters, as tested by Rust
`char::is_whitespace`: TAB through CR, space, NEL, NBSP, the Ogham
space mark, the U+2000 range, line and paragraph separators, the
narrow and medium mathematical spaces, and the ideographic space. -/
def isWsChar (c : Char) : Bool :=
  (9 ≤ c.toNat && c.toNat ≤ 13) || c.toNat == 32 || c.toNat == 133 ||
    c.toNat == 160 || c.toNat == 5760 ||
    (8192 ≤ c.toNat && c.toNat ≤ 8202) || c.toNat == 8232 ||
    c.toNat == 8233 || c.toNat == 8239 || c.toNat == 8287 ||
    c.toNat == 12288

/-- Model of `str::trim`: strip leading and trailing whitespace. -/
def trimStr (s : Str) : Str :=
  ((s.dropWhile isWsChar).reverse.dropWhile isWsChar).reverse

/-- ASCII-only case folding of one character (`A`–`Z` to `a`–`z`,
everything else unchanged): the folding applied by Rust
`eq_ignore_ascii_case` / `to_ascii_lowercase`. -/
def asciiLowerChar (c : Char) : Char :=
  if 65 ≤ c.toNat ∧ c.toNat ≤ 90 then Char.ofNat (c.toNat + 32) else c

/-- ASCII case folding of a string. -/
def asciiLower (s : Str) : Str := s.map asciiLowerChar

/-- Rust `str::eq_ignore_ascii_case`: equality after ASCII folding. -/
def eqIgnoreAsciiCase (a b : Str) : Bool := asciiLower a == asciiLower b

/-- Unicode lowercasing of one character, modelling Rust
`str::to_lowercase` on the Basic Latin and Latin-1 ranges, on which it
agrees with the full Unicode tables: `A`–`Z` and the Latin-1 uppercase
letters `À`–`Ö`, `Ø`–`Þ` map 32 code points up (so `É` becomes `é`,
unlike under ASCII folding). Characters outside these ranges are left
unchanged rather than embedding the entire Unicode table. -/
def uniLowerChar (c : Char) : Char :=
  if 65 ≤ c.toNat ∧ c.toNat ≤ 90 then Char.ofNat (c.toNat + 32)
  else if (192 ≤ c.toNat ∧ c.toNat ≤ 214) ∨ (216 ≤ c.toNat ∧ c.toNat ≤ 222)
    then Char.ofNat (c.toNat + 32)
  else c

/-- Unicode lowercasing of a string (`str::to_lowercase`). -/
def uniLower (s : Str) : Str := s.map uniLowerChar

/-- The `trim().to_lowercase()` normalization used for balance keys. -/
def normKey (s : Str) : Str := uniLower (trimStr s)

/-- A transaction (`from` and `to` are spelled `from_` and `to_`; both
are Lean keywords). -/
structure Transaction where
  from_ : Str
  pub_key : Str
  to_ : Str
  amount : Int
  signature : Str
  deriving Repr, DecidableEq, Inhabited

/-- A block. Timestamps are UTC instants modelled as integer seconds. -/
structure Block where
  index : Nat
  timestamp : Int
  transactions : List Transaction
  prev_hash : Str
  hash : Str
  nonce : Nat
  difficulty : Nat
  deriving Repr, DecidableEq, Inhabited

/-- The header struct `BlockForHash` serialized as the hash preimage:
`hash` and `difficulty` are excluded. -/
structure BlockForHash where
  index : Nat
  timestamp : Int
  transactions : List Transaction
  prev_hash : Str
  nonce : Nat
  deriving Repr, DecidableEq, Inhabited

/-- The header of a block, as taken by `calculate_hash`. -/
def headerOf (b : Block) : BlockForHash :=
  { index := b.index, timestamp := b.timestamp,
    transactions := b.transactions, prev_hash := b.prev_hash,
    nonce := b.nonce }

/-- Abstract view of `calculate_hash` as a function of the header (its
scratchpad internals are developed above; the claims below about whole
chains need only that it is a function of the header). -/
abbrev HashFn := BlockForHash → Str

/-- Application of the hash to a block, mirroring how `calculate_hash`
projects the block to `BlockForHash` first. -/
def calcHashWith (H : HashFn) (b : Block) : Str := H (headerOf b)

/-- The blockchain structure. -/
structure Blockchain where
  chain : List Block
  target_block_time : Int
  deriving Repr, DecidableEq, Inhabited

/-- The reserved `"coinbase"` sender sentinel. -/
def coinbaseStr : Str := "coinbase".data

/-- The placeholder transaction of the genesis block. -/
def genesisTx : Transaction :=
  { from_ := "genesis".data, pub_key := [], to_ := "network".data,
    amount := 0, signature := [] }

/-- Unix seconds of the fixed genesis timestamp 2025-10-11T00:00:00Z. -/
def genesisTimestamp : Int := 1760140800

/-- Model of `Blockchain::create_genesis_block`: the fixed genesis block
with its hash computed over its own header. -/
def createGenesisBlock (H : HashFn) : Block :=
  let b0 : Block :=
    { index := 0, timestamp := genesisTimestamp, transactions := [genesisTx],
      prev_hash := [], hash := [], nonce := 0, difficulty := 1 }
  { b0 with hash := calcHashWith H b0 }

/-- Model of `Blockchain::new`. -/
def newBlockchain (H : HashFn) : Blockchain :=
  { chain := [createGenesisBlock H], target_block_time := 30 }

/-! ### Signature verification (`verify_transaction_signature`)

The ECDSA-P256 verification of the `ring` crate is abstracted as a
parameter receiving the decoded public key bytes, the canonical message
`"{from}|{to}|{amount}"` (modelled as the triple of fields), and the
decoded signature bytes. The hex decoding of key and signature is from
the source. -/

/-- Type of the abstracted ECDSA verification primitive. -/
abbrev SigVerifier := List Nat → Str × Str × Int → List Nat → Bool

/-- Model of `verify_transaction_signature(tx, &tx.pub_key)`: empty
`pub_key` falls back to `from`; any hex-decoding failure of key or
signature yields `false`. -/
def verifyTxSig (ecdsaOk : SigVerifier) (tx : Transaction) : Bool :=
  let keyHex := if tx.pub_key.isEmpty then tx.from_ else tx.pub_key
  match hexDecode keyHex with
  | none => false
  | some pk =>
    match hexDecode tx.signature with
    | none => false
    | some sig => ecdsaOk pk (tx.from_, tx.to_, tx.amount) sig

/-! ### Chain integrity, load, validation, append -/

/-- The loop body of `Blockchain::verify_chain`: for each consecutive
pair, check `prev_hash` linkage and that the recomputed hash matches the
stored `hash` field. -/
def verifyChainLinks (H : HashFn) : Block → List Block → Bool
  | _, [] => true
  | prev, cur :: rest =>
    (cur.prev_hash == prev.hash) && (calcHashWith H cur == cur.hash) &&
      verifyChainLinks H cur rest

/-- Model of `Blockchain::verify_chain` (returns `true` for `Ok(())`).
Note: it checks only linkage and hash recomputation — no genesis
constants, no index arithmetic, no transaction signatures. -/
def verifyChain (H : HashFn) (bc : Blockchain) : Bool :=
  match bc.chain with
  | [] => true
  | b :: rest => verifyChainLinks H b rest

/-- Only the `prev_hash` linkage part of the chain walk. -/
def chainLinksOnly : Block → List Block → Bool
  | _, [] => true
  | prev, cur :: rest => (cur.prev_hash == prev.hash) && chainLinksOnly cur rest

/-- A chain whose consecutive `prev_hash` links all hold. -/
def chainLinked (chain : List Block) : Bool :=
  match chain with
  | [] => true
  | b :: rest => chainLinksOnly b rest

/-- Hash recomputation pass of `load_from_file`: overwrite every block's
`hash` field with the recomputed digest. -/
def recomputeHashes (H : HashFn) (chain : List Block) : List Block :=
  chain.map fun b => { b with hash := calcHashWith H b }

/-- The chain `load_from_file` ends up holding before the integrity
check: recomputed hashes, genesis inserted when the parse was empty. -/
def loadedChain (H : HashFn) (bc : Blockchain) : List Block :=
  if (recomputeHashes H bc.chain).isEmpty then [createGenesisBlock H]
  else recomputeHashes H bc.chain

/-- Model of the post-parse part of `Blockchain::load_from_file` on an
existing file: recompute hashes, insert genesis when empty, verify
integrity; `none` models the `Corrupt` error. -/
def loadParsed (H : HashFn) (bc : Blockchain) : Option Blockchain :=
  if verifyChain H
      { chain := loadedChain H bc, target_block_time := bc.target_block_time }
  then some { chain := loadedChain H bc,
              target_block_time := bc.target_block_time }
  else none

/-- Model of `Blockchain::load_from_file`; `none` as the file argument
means the file does not exist, in which case a fresh chain is created. -/
def loadFromFile (H : HashFn) (file : Option Blockchain) : Option Blockchain :=
  match file with
  | none => some (newBlockchain H)
  | some bc => loadParsed H bc

/-- Model of `Blockchain::validate_block`. `V tx` stands for
`verify_transaction_signature(tx, &tx.pub_key)`. -/
def validateBlock (H : HashFn) (V : Transaction → Bool) (bc : Blockchain)
    (block : Block) (difficulty : Nat) (skipPow : Bool) : Bool :=
  match bc.chain.getLast? with
  | none =>
    (block.index == 0) && block.prev_hash.isEmpty &&
      (calcHashWith H block == block.hash)
  | some last =>
    (block.prev_hash == last.hash) &&
    (calcHashWith H block == block.hash) &&
    (block.index == last.index + 1) &&
    (skipPow || validatorPow difficulty ((hexDecode block.hash).getD [])) &&
    (block.transactions.all fun tx => (tx.from_ == coinbaseStr) || V tx)

/-- First-failure reasons of `validate_block_verbose` (the formatted
message strings are not modelled, only which check fired). -/
inductive RejectReason where
  | genesisIndex | genesisPrevHash | genesisHash
  | prevHashMismatch | hashMismatch | indexMismatch
  | powFailed | invalidTxSignature
  deriving Repr, DecidableEq

/-- Model of `Blockchain::validate_block_verbose`. -/
def validateBlockVerbose (H : HashFn) (V : Transaction → Bool)
    (bc : Blockchain) (block : Block) (difficulty : Nat) (skipPow : Bool) :
    Option RejectReason :=
  match bc.chain.getLast? with
  | none =>
    if block.index != 0 then some .genesisIndex
    else if !block.prev_hash.isEmpty then some .genesisPrevHash
    else if calcHashWith H block != block.hash then some .genesisHash
    else none
  | some last =>
    if block.prev_hash != last.hash then some .prevHashMismatch
    else if calcHashWith H block != block.hash then some .hashMismatch
    else if block.index != last.index + 1 then some .indexMismatch
    else if !skipPow && !validatorPow difficulty ((hexDecode block.hash).getD [])
      then some .powFailed
    else if !(block.transactions.all fun tx => (tx.from_ == coinbaseStr) || V tx)
      then some .invalidTxSignature
    else none

/-- Model of `Blockchain::add_block_skip_pow`: validate, then push. -/
def addBlockSkipPow (H : HashFn) (V : Transaction → Bool) (bc : Blockchain)
    (block : Block) (difficulty : Nat) (skipPow : Bool) : Blockchain × Bool :=
  if validateBlock H V bc block difficulty skipPow then
    ({ bc with chain := bc.chain ++ [block] }, true)
  else
    (bc, false)

/-- Model of `Blockchain::add_block`. -/
def addBlock (H : HashFn) (V : Transaction → Bool) (bc : Blockchain)
    (block : Block) (difficulty : Nat) : Blockchain × Bool :=
  addBlockSkipPow H V bc block difficulty false

/-- Model of `Blockchain::get_dynamic_difficulty` (Rust `i64`/`i32`
arithmetic as `Int`; `Int.tdiv` is Rust's truncating division). -/
def getDynamicDifficulty (bc : Blockchain) : Nat :=
  if bc.chain.length ≤ 10 then 1
  else
    let latest := bc.chain.getD (bc.chain.length - 1) default
    let prev := bc.chain.getD (bc.chain.length - 10 - 1) default
    let avg := Int.tdiv (latest.timestamp - prev.timestamp) 10
    let d0 : Int := latest.difficulty
    let d1 :=
      if avg < bc.target_block_time then d0 + 1
      else if avg > bc.target_block_time then d0 - 1
      else d0
    let d2 := if d1 < 1 then 1 else d1
    let d3 := if d2 > 7 then 7 else d2
    d3.toNat

/-! ### Daemon handlers (`handle_connection` in `daemon.rs`) -/

/-- Replies of the `submittx` handler. -/
inductive TxResp where
  | okTx | invalidSig | invalidAmount | insufficientFunds
  deriving Repr, DecidableEq

/-- Two's-complement wrap of an integer into the `i64` range: Rust
release-mode semantics of overflowing `i64` arithmetic (debug builds
panic instead of wrapping). -/
def wrap64 (x : Int) : Int :=
  (x + 9223372036854775808) % 18446744073709551616 - 9223372036854775808

/-- The `i64` sum of a list, each addition wrapping
(`Iterator::sum::<i64>()`). -/
def wrapSum (l : List Int) : Int :=
  l.foldl (fun acc a => wrap64 (acc + a)) 0

/-- All transactions of a chain, in block order (the handler's nested
loop over blocks and their transactions). -/
def chainTxs (chain : List Block) : List Transaction :=
  chain.flatMap Block.transactions

/-- One step of the on-chain balance map fold: subtract the amount from
the (non-coinbase) sender's key, add it to the recipient's key, each
update wrapping in `i64`. The `HashMap<String, i64>` with
`or_insert(0)` is modelled as a total function defaulting to 0. -/
def applyTxBalance (m : Str → Int) (t : Transaction) : Str → Int :=
  let m1 : Str → Int := fun k =>
    if t.from_ ≠ coinbaseStr ∧ k = normKey t.from_ then wrap64 (m k - t.amount)
    else m k
  fun k => if k = normKey t.to_ then wrap64 (m1 k + t.amount) else m1 k

/-- The balance map the `submittx` handler builds by scanning the chain. -/
def chainBalances (chain : List Block) : Str → Int :=
  (chainTxs chain).foldl applyTxBalance fun _ => 0

/-- Pending outgoing total: mempool entries whose trimmed sender is
ASCII-case-insensitively equal to the Unicode-lowercased trimmed sender
of `tx` (`t.from.trim().eq_ignore_ascii_case(&tx.from.trim()
.to_lowercase())`), summed with `i64` wrapping. -/
def pendingOutgoing (mempool : List Transaction) (tx : Transaction) : Int :=
  wrapSum ((mempool.filter fun t =>
      eqIgnoreAsciiCase (trimStr t.from_) (uniLower (trimStr tx.from_))).map
    Transaction.amount)

/-- Model of the `submittx` branch of `handle_connection`; `sigValid` is
the outcome of `verify_transaction_signature`. Returns the reply and the
new mempool. The difference `onchain_bal - pending_out` is `i64`
arithmetic, hence wrapped. -/
def submitTx (sigValid : Bool) (chain : List Block)
    (mempool : List Transaction) (tx : Transaction) :
    TxResp × List Transaction :=
  if !sigValid then (.invalidSig, mempool)
  else if tx.amount ≤ 0 then (.invalidAmount, mempool)
  else
    let fromKey := normKey tx.from_
    let onchainBal := chainBalances chain fromKey
    let pendingOut := pendingOutgoing mempool tx
    if fromKey ≠ coinbaseStr ∧ wrap64 (onchainBal - pendingOut) < tx.amount then
      (.insufficientFunds, mempool)
    else
      (.okTx, mempool ++ [tx])

/-- The signed contribution of one transaction to the balance of key
`k`: `+amount` when the recipient key matches, `-amount` when the
non-coinbase sender key matches. -/
def txContrib (t : Transaction) (k : Str) : Int :=
  (if normKey t.to_ = k then t.amount else 0) -
  (if t.from_ ≠ coinbaseStr ∧ normKey t.from_ = k then t.amount else 0)

/-- Spec-side balance: the mathematical sum over all chain transactions
of `+amount` to the recipient key and `-amount` from the non-coinbase
sender key. -/
def balanceSpec (chain : List Block) (k : Str) : Int :=
  ((chainTxs chain).map fun t => txContrib t k).sum

/-- Spec-side pending total of the amended claim: mempool entries whose
trimmed sender is ASCII-case-insensitively equal to the lowercased
trimmed sender of `tx`, as a mathematical sum. -/
def pendingSpec (mempool : List Transaction) (tx : Transaction) : Int :=
  ((mempool.filter fun t =>
      asciiLower (trimStr t.from_) == asciiLower (uniLower (trimStr tx.from_))).map
    Transaction.amount).sum

/-- Pending total as the original claim words it — the sum of pending
mempool amounts with the same (lowercased, trimmed) `from` as the
transaction. Stated from the spec text, to be compared with the code's
ASCII-case-insensitive filter; the two differ for non-ASCII senders. -/
def pendingLowerSpec (mempool : List Transaction) (tx : Transaction) : Int :=
  ((mempool.filter fun t => normKey t.from_ == normKey tx.from_).map
    Transaction.amount).sum

/-- Replies of the `submitblock` handler (formatted reject strings are
represented by which case fired). -/
inductive BlockResp where
  | okBlock | rejectedIndexExists | rejectedInvalid (r : RejectReason)
  | errorAddFailed
  deriving Repr, DecidableEq

/-- Model of the `submitblock` branch of `handle_connection`: index
check against the tip, verbose validation, then `add_block`. Returns
the reply, the new chain state and the new mempool. -/
def submitBlock (H : HashFn) (V : Transaction → Bool) (bc : Blockchain)
    (mempool : List Transaction) (block : Block) :
    BlockResp × Blockchain × List Transaction :=
  let dynDiff := getDynamicDifficulty bc
  match bc.chain.getLast? with
  | some last =>
    if block.index ≤ last.index then (.rejectedIndexExists, bc, mempool)
    else
      match validateBlockVerbose H V bc block dynDiff false with
      | some r => (.rejectedInvalid r, bc, mempool)
      | none =>
        let res := addBlock H V bc block dynDiff
        if res.2 then (.okBlock, res.1, mempool)
        else (.errorAddFailed, res.1, mempool)
  | none =>
    match validateBlockVerbose H V bc block dynDiff false with
    | some r => (.rejectedInvalid r, bc, mempool)
    | none =>
      let res := addBlock H V bc block dynDiff
      if res.2 then (.okBlock, res.1, mempool)
      else (.errorAddFailed, res.1, mempool)

/-! ### Configuration loading (`config.rs`) -/

/-- The configuration structure. -/
structure Config where
  node_address : Str
  daemon_port : Nat
  web_port : Nat
  wallet_path : Str
  mining_threads : Nat
  peers : List Str
  auto_update : Bool
  sync_on_startup : Bool
  target_block_time : Int
  mining_intensity : Nat
  pool : Bool
  deriving Repr, DecidableEq, Inhabited

/-- Model of `Config::default` (the wallet path depends on the platform
config directory and is passed in). -/
def defaultConfig (walletPath : Str) : Config :=
  { node_address := "owonero.yabai.buzz:6969".data
    daemon_port := 6969
    web_port := 6767
    wallet_path := walletPath
    mining_threads := 1
    peers := []
    auto_update := true
    sync_on_startup := true
    target_block_time := 30
    mining_intensity := 100
    pool := false }

/-- Model of `Config::validate`; `walletPathOk` abstracts the file
system check that the wallet path's parent directory exists. -/
def validateConfig (walletPathOk : Str → Bool) (c : Config) : Bool :=
  (c.daemon_port != c.web_port) && (c.mining_threads != 0) &&
    (c.mining_intensity ≤ 100) && walletPathOk c.wallet_path

/-- Errors of `load_config`. -/
inductive ConfigErr where
  | readFailed | parseFailed | validateFailed
  deriving Repr, DecidableEq

/-- Model of `load_config`. `file` is the config file's contents
(`none` when the file does not exist), `parse` models JSON parsing,
`defaults` is `Config::default()`. The second component records whether
the write-defaults branch (lines 98–102 of `config.rs`) ran. The first
`fs::read_to_string(&path)?` propagates a missing-file error before the
`match` that would handle `ErrorKind::NotFound` is ever reached. -/
def loadConfig (file : Option Str) (parse : Str → Option Config)
    (walletPathOk : Str → Bool) (defaults : Config) :
    Except ConfigErr Config × Bool :=
  match file with
  | none => (Except.error ConfigErr.readFailed, false)
  | some data =>
    match parse data with
    | none => (Except.error ConfigErr.parseFailed, false)
    | some cfg =>
      if !validateConfig walletPathOk cfg then
        (Except.error ConfigErr.validateFailed, false)
      else
        match file with
        | none => (Except.ok defaults, true)
        | some data2 =>
          match parse data2 with
          | none => (Except.error ConfigErr.parseFailed, false)
          | some cfg2 =>
            if !validateConfig walletPathOk cfg2 then
              (Except.error ConfigErr.validateFailed, false)
            else
              (Except.ok cfg2, false)

/-! ### Chains reachable through the store's operations -/

/-- The chain states a daemon can hold: a fresh chain, a loaded chain,
the state after an `add_block`/`add_block_skip_pow` call (whether or not
it accepted), and the whole-chain replacement of the sync task, which
requires the incoming chain to be strictly longer. -/
inductive ReachableChain (H : HashFn) (V : Transaction → Bool) : Blockchain → Prop where
  | new : ReachableChain H V (newBlockchain H)
  | load (parsed bc : Blockchain) :
      loadParsed H parsed = some bc → ReachableChain H V bc
  | add (bc : Blockchain) (block : Block) (difficulty : Nat) (skipPow : Bool) :
      ReachableChain H V bc →
      ReachableChain H V (addBlockSkipPow H V bc block difficulty skipPow).1
  | sync (bc : Blockchain) (newChain : List Block) :
      ReachableChain H V bc → bc.chain.length < newChain.length →
      ReachableChain H V { bc with chain := newChain }

/-! ### Concrete objects used by the example theorems below -/

/-- A concrete RX/OWO state for evaluating one loop iteration. -/
def rxCexState : RxState := { a := 1, b := 1, c := 1, sp := [1, 1] }

/-- Another concrete RX/OWO state. -/
def rxWitState : RxState := { a := 2, b := 3, c := 4, sp := [5, 6] }

/-- A concrete hash function stand-in returning the empty digest. -/
def hashEmpty : HashFn := fun _ => []

/-- A digest of 64 `'0'` hex characters. -/
def zeros64 : Str := List.replicate 64 '0'

/-- A concrete hash function stand-in returning 64 zero hex chars. -/
def hashZeros : HashFn := fun _ => zeros64

/-- The most permissive ECDSA primitive: accepts everything that hex
decoding lets through. -/
def sigAlwaysOk : SigVerifier := fun _ _ _ => true

/-- A per-transaction verifier stand-in rejecting everything. -/
def sigNever : Transaction → Bool := fun _ => false

/-- A non-coinbase transaction whose signature is the non-hex string
"zz", so `verify_transaction_signature` returns false for it under any
ECDSA primitive. -/
def badTx : Transaction :=
  { from_ := "alice".data, pub_key := [], to_ := "bob".data,
    amount := 5, signature := "zz".data }

/-- A block carrying `badTx`. -/
def badBlock : Block :=
  { index := 0, timestamp := 0, transactions := [badTx], prev_hash := [],
    hash := "stale".data, nonce := 0, difficulty := 1 }

/-- A persisted chain consisting of just `badBlock`. -/
def badParsed : Blockchain := { chain := [badBlock], target_block_time := 30 }

/-- A concrete tip block whose stored hash is 64 zero hex chars. -/
def tipBlock0 : Block :=
  { index := 0, timestamp := 0, transactions := [], prev_hash := [],
    hash := zeros64, nonce := 0, difficulty := 1 }

/-- A one-block chain state with `tipBlock0` at the tip. -/
def chain0 : Blockchain := { chain := [tipBlock0], target_block_time := 30 }

/-- A coinbase transaction included in the submitted block. -/
def coinbaseTx1 : Transaction :=
  { from_ := "coinbase".data, pub_key := [], to_ := "miner".data,
    amount := 100, signature := "sig1".data }

/-- A block extending `tipBlock0` and containing `coinbaseTx1`; under
`hashZeros` it validates at difficulty 1. -/
def submittedBlock1 : Block :=
  { index := 1, timestamp := 5, transactions := [coinbaseTx1],
    prev_hash := zeros64, hash := zeros64, nonce := 0, difficulty := 1 }

/-- A mempool entry with the same signature string as `coinbaseTx1`. -/
def mempoolTx1 : Transaction :=
  { from_ := "alice".data, pub_key := [], to_ := "bob".data,
    amount := 100, signature := "sig1".data }

/-- A concrete transaction from a sender with no on-chain balance. -/
def pennilessTx : Transaction :=
  { from_ := "alice".data, pub_key := [], to_ := "bob".data,
    amount := 5, signature := [] }

/-- A coinbase transaction funding the lowercase accented key `é`. -/
def fundTx : Transaction :=
  { from_ := "coinbase".data, pub_key := [], to_ := "é".data,
    amount := 10, signature := [] }

/-- A block carrying `fundTx`. -/
def fundBlock : Block :=
  { index := 0, timestamp := 0, transactions := [fundTx], prev_hash := [],
    hash := [], nonce := 0, difficulty := 1 }

/-- A pending mempool entry whose sender is the uppercase `É`. -/
def pendingE : Transaction :=
  { from_ := "É".data, pub_key := [], to_ := "bob".data,
    amount := 6, signature := "aa".data }

/-- A submitted transaction from the uppercase sender `É`: its balance
key `normKey` is `é`, but the code's ASCII-case-insensitive pending
filter does not match `É` against `é`. -/
def accentTx : Transaction :=
  { from_ := "É".data, pub_key := [], to_ := "bob".data,
    amount := 5, signature := "bb".data }
/-! ### Helper lemmas about `List.set` / `List.get?` -/

/-- Reading back the element just written by `List.set`. -/
theorem getD_set_self (l : List Nat) (n a : Nat) (h : n < l.length) :
    (l.set n a).getD n 0 = a := by
  simp [List.getD, List.getElem?_set_eq_of_lt a h]

/-- The loop `fillLoop` depends on the initial list only through its length and
the entries it does not overwrite. -/
theorem fillLoop_congr :
    ∀ (fuel rng i : Nat) (sp1 sp2 : List Nat),
      sp1.length = sp2.length →
      (∀ j, j < i → sp1.get? j = sp2.get? j) →
      (∀ j, i + fuel ≤ j → sp1.get? j = sp2.get? j) →
      fillLoop rng i fuel sp1 = fillLoop rng i fuel sp2 := by
  intro fuel
  induction fuel with
  | zero =>
    intro rng i sp1 sp2 hlen hlt hge
    simp only [fillLoop]
    apply List.ext_get?
    intro j
    by_cases hj : j < i
    · exact hlt j hj
    · exact hge j (by omega)
  | succ n ih =>
    intro rng i sp1 sp2 hlen hlt hge
    simp only [fillLoop]
    apply ih
    · simp [hlen]
    · intro j hj
      by_cases hji : j = i
      · subst hji
        by_cases hin : j < sp1.length
        · rw [List.get?_set_eq_of_lt _ hin, List.get?_set_eq_of_lt _ (hlen ▸ hin)]
        · rw [List.get?_set_eq, List.get?_set_eq]
          have h1 : sp1.get? j = none := by
            rw [List.get?_eq_none]; omega
          have h2 : sp2.get? j = none := by
            rw [List.get?_eq_none]; omega
          rw [h1, h2]
      · rw [List.get?_set_ne _ _ (by omega), List.get?_set_ne _ _ (by omega)]
        exact hlt j (by omega)
    · intro j hj
      rw [List.get?_set_ne _ _ (by omega), List.get?_set_ne _ _ (by omega)]
      exact hge j (by omega)

/-- The scratchpad fill overwrites every word: its result does not
depend on the previous contents, only on the length. -/
theorem rxFill_congr (rng : Nat) (sp1 sp2 : List Nat)
    (hlen : sp1.length = sp2.length) :
    rxFill rng sp1 = rxFill rng sp2 := by
  unfold rxFill
  rw [hlen]
  apply fillLoop_congr _ _ _ _ _ hlen
  · intro j hj; omega
  · intro j hj
    have h1 : sp1.get? j = none := by rw [List.get?_eq_none]; omega
    have h2 : sp2.get? j = none := by rw [List.get?_eq_none]; omega
    rw [h1, h2]

/-! ### C1: value written back by the RX/OWO main loop -/

/-- C1 (counterexample). At the concrete state `rxCexState` and
iteration 1, the 64-bit word written back at
`write_idx = (a XOR b XOR c) mod (S/8)` is NOT `a + b*c` for the
post-mixing registers: the code computes `(a + b) * c` (method-chained
`a.wrapping_add(b).wrapping_mul(c)`), and here the two differ
(`0` versus `2^48 + 2`). -/
theorem rx_writeback_not_a_plus_bc :
    (rxStep [] 1 rxCexState).sp.getD
        (wxor (wxor (rxPostMix rxCexState 1).1 (rxPostMix rxCexState 1).2.1)
            (rxPostMix rxCexState 1).2.2 % rxCexState.sp.length) 0
      ≠ wadd (rxPostMix rxCexState 1).1
          (wmul (rxPostMix rxCexState 1).2.1 (rxPostMix rxCexState 1).2.2) := by
  decide

/-- C1 (amended). In every iteration of the RX/OWO main loop, after the
non-linear mixing step, the scratchpad word written back at
`write_idx = (a XOR b XOR c) mod (S/8)` equals the wrapping product
`(a + b) * c` of the current registers. -/
theorem rx_writeback_value (blockBytes : List Nat) (k : Nat) (s : RxState)
    (h : s.sp ≠ []) :
    (rxStep blockBytes k s).sp.getD
        (wxor (wxor (rxPostMix s k).1 (rxPostMix s k).2.1)
            (rxPostMix s k).2.2 % s.sp.length) 0
      = wmul (wadd (rxPostMix s k).1 (rxPostMix s k).2.1)
          (rxPostMix s k).2.2 := by
  have hlen : 0 < s.sp.length := List.length_pos.mpr h
  unfold rxStep
  rcases hp : rxPostMix s k with ⟨a2, b2, c2⟩
  simp only [hp]
  split
  · exact getD_set_self _ _ _ (Nat.mod_lt _ hlen)
  · exact getD_set_self _ _ _ (Nat.mod_lt _ hlen)

/-- Witness for C1's amended theorem at a concrete state. -/
theorem rx_writeback_value_witness :
    (rxStep [7] 3 rxWitState).sp.getD
        (wxor (wxor (rxPostMix rxWitState 3).1 (rxPostMix rxWitState 3).2.1)
            (rxPostMix rxWitState 3).2.2 % rxWitState.sp.length) 0
      = wmul (wadd (rxPostMix rxWitState 3).1 (rxPostMix rxWitState 3).2.1)
          (rxPostMix rxWitState 3).2.2 :=
  rx_writeback_value [7] 3 rxWitState (by decide)

/-! ### C2: bounds of the 32 final scratchpad reads -/

set_option maxRecDepth 8192 in
/-- C2. The final 32 scratchpad reads use byte offsets
`(a + i) mod SCRATCHPAD_SIZE` with the 2 MiB constant, not the actual
scratchpad size: with the legal configured size 1024 (accepted by
`init_scratchpad`, a multiple of 8) and register value `a = 1024`, the
very first read indexes byte 1024 of a 1024-byte scratchpad — out of
bounds (a Rust panic), contradicting the claim that every read is
within bounds at offsets `(a + i) mod S` for the actual size `S`. -/
theorem final_read_out_of_bounds :
    initScratchpadSize (some 1024) = 1024 ∧ 1024 % 8 = 0 ∧
    finalReadIdx 1024 0 = 1024 ∧
    ¬ finalReadIdx 1024 0 < 1024 ∧
    finalInputBytes 1024 0 0 [] (List.replicate 1024 0) = none := by
  refine ⟨by decide, by decide, by decide, by decide, ?_⟩
  rfl

/-! ### C3: determinism of `calculate_hash` across scratchpad reuse -/

/-- C3. The scratchpad computation of `calculate_hash` is independent of
the contents the reused per-thread scratchpad holds on entry: for fixed
seed words, header preimage, iteration count and scratchpad size, any
two initial scratchpad contents give the same `final_input` (hence the
same SHA3-256 digest), because the fill loop overwrites every word
before any read. -/
theorem calc_hash_input_deterministic (seed0 a0 b0 c0 : Nat)
    (blockBytes : List Nat) (iterations : Nat) (sp1 sp2 : List Nat)
    (h : sp1.length = sp2.length) :
    calcHashInput seed0 a0 b0 c0 blockBytes iterations sp1 =
      calcHashInput seed0 a0 b0 c0 blockBytes iterations sp2 := by
  unfold calcHashInput
  rw [rxFill_congr seed0 sp1 sp2 h]

/-- Witness for C3 at two concrete, different scratchpad contents. -/
theorem calc_hash_input_deterministic_witness :
    calcHashInput 5 7 9 11 [3] 2 [1, 2] = calcHashInput 5 7 9 11 [3] 2 [9, 9] :=
  calc_hash_input_deterministic 5 7 9 11 [3] 2 [1, 2] [9, 9] rfl

/-! ### C4: the miner's and the validator's difficulty tests agree -/

/-- Characterization of the starts-with test against a replicated
pattern: every position below `d` holds the repeated character. -/
theorem startsWith_replicate_iff (c : Char) :
    ∀ (d : Nat) (xs : List Char),
      startsWithChars (List.replicate d c) xs = true ↔
        ∀ j, j < d → xs.get? j = some c := by
  intro d
  induction d with
  | zero =>
    intro xs
    simp [startsWithChars]
  | succ n ih =>
    intro xs
    cases xs with
    | nil =>
      simp only [List.replicate, startsWithChars]
      constructor
      · intro h; cases h
      · intro h
        have := h 0 (by omega)
        simp at this
    | cons x xs' =>
      simp only [List.replicate, startsWithChars, Bool.and_eq_true, beq_iff_eq]
      rw [ih xs']
      constructor
      · rintro ⟨rfl, h2⟩
        intro j hj
        cases j with
        | zero => rfl
        | succ m => exact h2 m (by omega)
      · intro h
        refine ⟨?_, ?_⟩
        · have := h 0 (by omega)
          simpa using this.symm
        · intro m hm
          exact h (m + 1) (by omega)

/-- Position `j` of the hex encoding is the hex digit of nibble `j`. -/
theorem hexEncode_get? :
    ∀ (bytes : List Nat) (j : Nat),
      (hexEncode bytes).get? j =
        (bytes.get? (j / 2)).map fun b =>
          hexDigitChar (if j % 2 == 0 then b / 16 else b % 16) := by
  intro bytes
  induction bytes with
  | nil => intro j; simp [hexEncode]
  | cons b bs ih =>
    intro j
    match j with
    | 0 => simp [hexEncode]
    | 1 => simp [hexEncode]
    | k + 2 =>
      have h1 : (k + 2) / 2 = k / 2 + 1 := by omega
      have h2 : (k + 2) % 2 = k % 2 := by omega
      simp only [hexEncode, List.flatMap_cons]
      rw [show ([hexDigitChar (b / 16), hexDigitChar (b % 16)] ++
            bs.flatMap fun b => [hexDigitChar (b / 16), hexDigitChar (b % 16)]) =
          hexDigitChar (b / 16) :: hexDigitChar (b % 16) :: hexEncode bs from rfl]
      rw [show (hexDigitChar (b / 16) :: hexDigitChar (b % 16) :: hexEncode bs).get? (k + 2)
            = (hexEncode bs).get? k from rfl]
      rw [ih k, h1, h2]
      rfl

/-- The hex digit of a nibble is the character `'0'` exactly for 0. -/
theorem hexDigitChar_eq_zero_iff (n : Nat) : hexDigitChar n = '0' ↔ n = 0 := by
  match n with
  | 0 => simp [hexDigitChar]
  | 1 => simp [hexDigitChar]
  | 2 => simp [hexDigitChar]
  | 3 => simp [hexDigitChar]
  | 4 => simp [hexDigitChar]
  | 5 => simp [hexDigitChar]
  | 6 => simp [hexDigitChar]
  | 7 => simp [hexDigitChar]
  | 8 => simp [hexDigitChar]
  | 9 => simp [hexDigitChar]
  | 10 => simp [hexDigitChar]
  | 11 => simp [hexDigitChar]
  | 12 => simp [hexDigitChar]
  | 13 => simp [hexDigitChar]
  | 14 => simp [hexDigitChar]
  | 15 => simp [hexDigitChar]
  | m + 16 => simp [hexDigitChar]

/-- The miner's test holds iff the first `d` nibbles are all zero. -/
theorem minerPow_iff (d : Nat) (bytes : List Nat) (hd : d ≤ 2 * bytes.length) :
    (minerPow d (hexEncode bytes) = true ↔ ∀ j, j < d → nthNibble bytes j = 0) := by
  unfold minerPow
  rw [startsWith_replicate_iff]
  constructor
  · intro h j hj
    have hx := h j hj
    rw [hexEncode_get? bytes j] at hx
    have hj2 : j / 2 < bytes.length := by omega
    cases hq : bytes.get? (j / 2) with
    | none =>
      rw [List.get?_eq_none] at hq
      omega
    | some b =>
      rw [hq] at hx
      simp only [Option.map_some', Option.some.injEq] at hx
      rw [hexDigitChar_eq_zero_iff] at hx
      unfold nthNibble
      have hb : (bytes[j / 2]?).getD 0 = b := by
        rw [← List.get?_eq_getElem?, hq]
        rfl
      by_cases hpar : j % 2 = 0
      · simpa [hb, hpar] using hx
      · have hpar1 : j % 2 = 1 := by omega
        simpa [hb, hpar1] using hx
  · intro h j hj
    rw [hexEncode_get? bytes j]
    have hj2 : j / 2 < bytes.length := by omega
    cases hq : bytes.get? (j / 2) with
    | none =>
      rw [List.get?_eq_none] at hq
      omega
    | some b =>
      simp only [Option.map_some', Option.some.injEq]
      rw [hexDigitChar_eq_zero_iff]
      have hx := h j hj
      unfold nthNibble at hx
      have hb : (bytes[j / 2]?).getD 0 = b := by
        rw [← List.get?_eq_getElem?, hq]
        rfl
      by_cases hpar : j % 2 = 0
      · simpa [hb, hpar] using hx
      · have hpar1 : j % 2 = 1 := by omega
        simpa [hb, hpar1] using hx

/-- Invariant of the validator's loop: from byte index `i` on (with
`fuel` iterations left to reach `(d+1)/2`), the loop accepts iff all
nibbles `j` with `2*i ≤ j < d` are zero — provided the digest is long
enough that the early-exit break cannot fire. -/
theorem powCheckLoop_iff :
    ∀ (fuel i d : Nat) (bytes : List Nat),
      i + fuel = (d + 1) / 2 →
      (d + 1) / 2 ≤ bytes.length →
      (powCheckLoop d bytes i fuel = true ↔
        ∀ j, 2 * i ≤ j → j < d → nthNibble bytes j = 0) := by
  intro fuel
  induction fuel with
  | zero =>
    intro i d bytes hif hlen
    simp only [powCheckLoop, true_iff]
    intro j hji hjd
    omega
  | succ n ih =>
    intro i d bytes hif hlen
    have hi : i < bytes.length := by omega
    have hnle : ¬ bytes.length ≤ i := by omega
    rw [show powCheckLoop d bytes i (n + 1) =
        (if bytes.length ≤ i then true
         else
           if decide (2 * i < d) && bytes.getD i 0 / 16 != 0 then false
           else if decide (2 * i + 1 < d) && bytes.getD i 0 % 16 != 0 then false
           else powCheckLoop d bytes (i + 1) n) from rfl]
    rw [if_neg hnle]
    have hnibEven : nthNibble bytes (2 * i) = bytes.getD i 0 / 16 := by
      unfold nthNibble
      have h1 : 2 * i % 2 = 0 := by omega
      have h2 : 2 * i / 2 = i := by omega
      simp [h1, h2]
    have hnibOdd : nthNibble bytes (2 * i + 1) = bytes.getD i 0 % 16 := by
      unfold nthNibble
      have h1 : (2 * i + 1) % 2 = 1 := by omega
      have h2 : (2 * i + 1) / 2 = i := by omega
      simp [h1, h2]
    by_cases hc1 : 2 * i < d ∧ bytes.getD i 0 / 16 ≠ 0
    · rw [if_pos (by
        simp only [Bool.and_eq_true, decide_eq_true_eq, bne_iff_ne, ne_eq]
        exact ⟨hc1.1, hc1.2⟩)]
      constructor
      · intro hfalse
        exact absurd hfalse (by decide)
      · intro hall
        exact absurd (hnibEven ▸ hall (2 * i) (by omega) hc1.1) hc1.2
    · rw [if_neg (by
        simp only [Bool.and_eq_true, decide_eq_true_eq, bne_iff_ne, ne_eq]
        intro hx
        exact hc1 ⟨hx.1, hx.2⟩)]
      by_cases hc2 : 2 * i + 1 < d ∧ bytes.getD i 0 % 16 ≠ 0
      · rw [if_pos (by
          simp only [Bool.and_eq_true, decide_eq_true_eq, bne_iff_ne, ne_eq]
          exact ⟨hc2.1, hc2.2⟩)]
        constructor
        · intro hfalse
          exact absurd hfalse (by decide)
        · intro hall
          exact absurd (hnibOdd ▸ hall (2 * i + 1) (by omega) hc2.1) hc2.2
      · rw [if_neg (by
          simp only [Bool.and_eq_true, decide_eq_true_eq, bne_iff_ne, ne_eq]
          intro hx
          exact hc2 ⟨hx.1, hx.2⟩)]
        rw [ih (i + 1) d bytes (by omega) hlen]
        constructor
        · intro hrest j hji hjd
          by_cases hj1 : 2 * (i + 1) ≤ j
          · exact hrest j hj1 hjd
          · have hcase : j = 2 * i ∨ j = 2 * i + 1 := by omega
            rcases hcase with rfl | rfl
            · rw [hnibEven]
              by_contra hne
              exact hc1 ⟨hjd, hne⟩
            · rw [hnibOdd]
              by_contra hne
              exact hc2 ⟨hjd, hne⟩
        · intro hall j hji hjd
          exact hall j (by omega) hjd

/-- The validator's test holds iff the first `d` nibbles are zero,
provided the digest has at least `(d+1)/2` bytes. -/
theorem validatorPow_iff (d : Nat) (bytes : List Nat)
    (hlen : (d + 1) / 2 ≤ bytes.length) :
    (validatorPow d bytes = true ↔ ∀ j, j < d → nthNibble bytes j = 0) := by
  unfold validatorPow
  rw [powCheckLoop_iff ((d + 1) / 2) 0 d bytes (by omega) hlen]
  constructor
  · intro h j hj
    exact h j (by omega) hj
  · intro h j _ hj
    exact h j hj

/-- C4. For every 32-byte digest and every difficulty `D` in `[1, 7]`,
the miner's test (lowercase hex encoding starts with `D` zeros) and the
validator's byte/nibble loop agree. -/
theorem miner_validator_pow_agree (bytes : List Nat) (d : Nat)
    (hlen : bytes.length = 32) (hd1 : 1 ≤ d) (hd7 : d ≤ 7) :
    minerPow d (hexEncode bytes) = validatorPow d bytes := by
  have hm := minerPow_iff d bytes (by omega)
  have hv := validatorPow_iff d bytes (by omega)
  cases hmv : minerPow d (hexEncode bytes) with
  | true =>
    exact (hv.mpr (hm.mp hmv)).symm
  | false =>
    cases hvv : validatorPow d bytes with
    | true =>
      have hP := hv.mp hvv
      have hmt := hm.mpr hP
      rw [hmv] at hmt
      exact absurd hmt (by decide)
    | false => rfl

/-- Witness for C4 at the all-zero digest and difficulty 1. -/
theorem miner_validator_pow_agree_witness :
    minerPow 1 (hexEncode (List.replicate 32 0)) =
      validatorPow 1 (List.replicate 32 0) :=
  miner_validator_pow_agree (List.replicate 32 0) 1 (by decide) (by decide)
    (by decide)

/-! ### C5: what `load_from_file` actually verifies -/

/-- Projecting the header ignores the `hash` field. -/
theorem headerOf_set_hash (b : Block) (h : Str) :
    headerOf { b with hash := h } = headerOf b := rfl

/-- Every block of the chain held after the recomputation pass (and the
possible genesis insertion) carries exactly its recomputed hash. -/
theorem loadedChain_hash_recomputed (H : HashFn) (bc : Blockchain) :
    ∀ b ∈ loadedChain H bc, b.hash = calcHashWith H b := by
  intro b hb
  unfold loadedChain at hb
  split at hb
  · rw [List.mem_singleton] at hb
    subst hb
    rfl
  · unfold recomputeHashes at hb
    rw [List.mem_map] at hb
    obtain ⟨x, _, rfl⟩ := hb
    simp only [calcHashWith, headerOf_set_hash]

/-- On a chain whose blocks carry their recomputed hashes, the
`verify_chain` walk degenerates to the `prev_hash` linkage check. -/
theorem verifyChainLinks_recomputed (H : HashFn) :
    ∀ (l : List Block) (prev : Block),
      (∀ b ∈ l, b.hash = calcHashWith H b) →
      verifyChainLinks H prev l = chainLinksOnly prev l := by
  intro l
  induction l with
  | nil => intro prev _; rfl
  | cons cur rest ih =>
    intro prev hrec
    unfold verifyChainLinks chainLinksOnly
    have hcur : cur.hash = calcHashWith H cur :=
      hrec cur (List.mem_cons_self cur rest)
    have hbeq : (calcHashWith H cur == cur.hash) = true := by
      simp [hcur]
    rw [hbeq]
    rw [ih cur fun b hb => hrec b (List.mem_cons_of_mem cur hb)]
    simp [Bool.and_assoc]

/-- The chain produced by `loadedChain` is never empty. -/
theorem loadedChain_ne_nil (H : HashFn) (bc : Blockchain) :
    loadedChain H bc ≠ [] := by
  unfold loadedChain
  split
  · simp
  · rename_i hne
    simpa [List.isEmpty_iff] using hne

/-- The integrity check performed on the loaded chain is exactly the
linkage check. -/
theorem verifyChain_loaded_eq (H : HashFn) (bc : Blockchain) :
    verifyChain H
        { chain := loadedChain H bc, target_block_time := bc.target_block_time }
      = chainLinked (loadedChain H bc) := by
  unfold verifyChain chainLinked
  cases hl : loadedChain H bc with
  | nil => rfl
  | cons b rest =>
    show verifyChainLinks H b rest = chainLinksOnly b rest
    exact verifyChainLinks_recomputed H rest b fun x hx =>
      loadedChain_hash_recomputed H bc x (hl ▸ List.mem_cons_of_mem b hx)

/-- C5 (amended). Loading a persisted chain recomputes every block's
hash in place and then succeeds if and only if the `prev_hash` linkage
between consecutive blocks holds: the hash-recomputation check of
`verify_chain` passes vacuously on just-recomputed hashes, and neither
index arithmetic, nor genesis constants, nor transaction signatures are
examined, so in particular a chain containing a non-coinbase transaction
whose signature does not verify can still load successfully. -/
theorem loadParsed_isSome_iff_linked (H : HashFn) (bc : Blockchain) :
    (loadParsed H bc).isSome = true ↔
      chainLinked (loadedChain H bc) = true := by
  unfold loadParsed
  rw [verifyChain_loaded_eq]
  cases hcl : chainLinked (loadedChain H bc) with
  | true => simp
  | false => simp

/-- C5 (counterexample). The concrete one-block chain `badParsed`
contains the non-coinbase transaction `badTx`, whose signature `"zz"`
fails `verify_transaction_signature` under any ECDSA primitive (hex
decoding fails), yet `load_from_file` accepts the chain. -/
theorem load_accepts_unverifiable_signature :
    badTx ∈ badBlock.transactions ∧
    badTx.from_ ≠ coinbaseStr ∧
    verifyTxSig sigAlwaysOk badTx = false ∧
    (loadParsed hashEmpty badParsed).isSome = true := by
  refine ⟨by decide, by decide, by decide, ?_⟩
  rfl

/-! ### C6: the `submittx` insufficient-funds decision -/

/-- Wrapping is the identity inside the `i64` range. -/
theorem wrap64_eq_self (x : Int) (h : x.natAbs < 9223372036854775808) :
    wrap64 x = x := by
  unfold wrap64
  omega

/-- The magnitude of a list sum is at most the sum of magnitudes. -/
theorem natAbs_sum_le (l : List Int) :
    l.sum.natAbs ≤ (l.map Int.natAbs).sum := by
  induction l with
  | nil => simp
  | cons a l ih =>
    simp only [List.sum_cons, List.map_cons]
    have h1 := Int.natAbs_add_le a l.sum
    omega

/-- Summing a `Nat`-valued map over a filtered list never exceeds the
sum over the whole list. -/
theorem sum_map_filter_le (l : List Transaction) (p : Transaction → Bool)
    (f : Transaction → Nat) :
    ((l.filter p).map f).sum ≤ (l.map f).sum := by
  induction l with
  | nil => simp
  | cons a l ih =>
    rw [List.filter_cons]
    by_cases h : p a
    · rw [if_pos h]
      simp only [List.map_cons, List.sum_cons]
      omega
    · rw [if_neg h]
      simp only [List.map_cons, List.sum_cons]
      omega

/-- A transaction contributes at most its own magnitude to any key. -/
theorem txContrib_natAbs (t : Transaction) (k : Str) :
    (txContrib t k).natAbs ≤ t.amount.natAbs := by
  unfold txContrib
  by_cases c1 : normKey t.to_ = k <;>
    by_cases c2 : t.from_ ≠ coinbaseStr ∧ normKey t.from_ = k <;>
    simp [c1, c2] <;> omega

/-- One fold step of the balance map adds exactly the signed
contribution of the transaction to the key, provided the running value
and the amount stay jointly inside the `i64` range (so no update
wraps). -/
theorem applyTxBalance_apply (m : Str → Int) (t : Transaction) (k : Str)
    (h : (m k).natAbs + t.amount.natAbs < 9223372036854775808) :
    applyTxBalance m t k = m k + txContrib t k := by
  unfold applyTxBalance txContrib
  dsimp only
  have hsub := Int.natAbs_sub_le (m k) t.amount
  have hadd := Int.natAbs_add_le (m k) t.amount
  by_cases h1 : k = normKey t.to_
  · rw [if_pos h1]
    by_cases h2 : t.from_ ≠ coinbaseStr ∧ k = normKey t.from_
    · rw [if_pos h2, if_pos (h1 ▸ rfl), if_pos ⟨h2.1, h2.2.symm⟩]
      rw [wrap64_eq_self (m k - t.amount) (by omega)]
      rw [wrap64_eq_self (m k - t.amount + t.amount) (by
        have heq : m k - t.amount + t.amount = m k := by ring
        rw [heq]
        omega)]
      ring
    · rw [if_neg h2, if_pos (h1 ▸ rfl), if_neg fun hc => h2 ⟨hc.1, hc.2.symm⟩]
      rw [wrap64_eq_self (m k + t.amount) (by omega)]
      ring
  · rw [if_neg h1]
    by_cases h2 : t.from_ ≠ coinbaseStr ∧ k = normKey t.from_
    · rw [if_pos h2, if_neg fun hc => h1 hc.symm, if_pos ⟨h2.1, h2.2.symm⟩]
      rw [wrap64_eq_self (m k - t.amount) (by omega)]
      ring
    · rw [if_neg h2, if_neg fun hc => h1 hc.symm,
        if_neg fun hc => h2 ⟨hc.1, hc.2.symm⟩]
      ring

/-- The balance fold computes the signed mathematical sum of
contributions as long as the total magnitude of the amounts stays
below `2^63`. -/
theorem balances_fold_eq (txs : List Transaction) :
    ∀ (m : Str → Int) (k : Str),
      (m k).natAbs + ((txs.map fun t => t.amount.natAbs).sum)
          < 9223372036854775808 →
      txs.foldl applyTxBalance m k =
        m k + (txs.map fun t => txContrib t k).sum := by
  induction txs with
  | nil => intro m k _; simp
  | cons t ts ih =>
    intro m k h
    simp only [List.map_cons, List.sum_cons] at h
    have hstep : applyTxBalance m t k = m k + txContrib t k :=
      applyTxBalance_apply m t k (by omega)
    have habs : (applyTxBalance m t k).natAbs
        ≤ (m k).natAbs + t.amount.natAbs := by
      rw [hstep]
      have h1 := Int.natAbs_add_le (m k) (txContrib t k)
      have h2 := txContrib_natAbs t k
      omega
    rw [List.foldl_cons, ih (applyTxBalance m t) k (by omega), hstep]
    simp only [List.map_cons, List.sum_cons]
    ring

/-- The handler's balance map agrees with the spec-side signed sum in
the absence of `i64` overflow. -/
theorem chainBalances_eq_balanceSpec (chain : List Block) (k : Str)
    (h : (((chainTxs chain).map fun t => t.amount.natAbs).sum)
        < 9223372036854775808) :
    chainBalances chain k = balanceSpec chain k := by
  unfold chainBalances balanceSpec
  rw [balances_fold_eq (chainTxs chain) (fun _ => 0) k (by simpa using h)]
  simp

/-- A wrapping fold of additions agrees with the plain sum while the
accumulated magnitude stays inside the `i64` range. -/
theorem wrapSum_fold_eq (l : List Int) :
    ∀ acc : Int,
      acc.natAbs + (l.map Int.natAbs).sum < 9223372036854775808 →
      l.foldl (fun a x => wrap64 (a + x)) acc = acc + l.sum := by
  induction l with
  | nil => intro acc _; simp
  | cons x xs ih =>
    intro acc h
    simp only [List.map_cons, List.sum_cons] at h
    have hadd := Int.natAbs_add_le acc x
    rw [List.foldl_cons, wrap64_eq_self (acc + x) (by omega),
      ih (acc + x) (by omega)]
    simp only [List.sum_cons]
    ring

/-- The wrapping `i64` sum agrees with the mathematical sum in the
absence of overflow. -/
theorem wrapSum_eq_sum (l : List Int)
    (h : (l.map Int.natAbs).sum < 9223372036854775808) :
    wrapSum l = l.sum := by
  unfold wrapSum
  rw [wrapSum_fold_eq l 0 (by simpa using h)]
  simp

/-- The handler's pending-outgoing total agrees with the spec-side
mathematical sum over the same ASCII-case-insensitive filter, in the
absence of overflow. -/
theorem pendingOutgoing_eq_pendingSpec (mempool : List Transaction)
    (tx : Transaction)
    (h : ((mempool.map fun t => t.amount.natAbs).sum)
        < 9223372036854775808) :
    pendingOutgoing mempool tx = pendingSpec mempool tx := by
  unfold pendingOutgoing pendingSpec eqIgnoreAsciiCase
  apply wrapSum_eq_sum
  rw [List.map_map]
  have hfil := sum_map_filter_le mempool
    (fun t => asciiLower (trimStr t.from_)
      == asciiLower (uniLower (trimStr tx.from_)))
    (fun t => t.amount.natAbs)
  calc ((mempool.filter fun t => asciiLower (trimStr t.from_)
          == asciiLower (uniLower (trimStr tx.from_))).map
        (Int.natAbs ∘ Transaction.amount)).sum
      = ((mempool.filter fun t => asciiLower (trimStr t.from_)
          == asciiLower (uniLower (trimStr tx.from_))).map
        fun t => t.amount.natAbs).sum := rfl
    _ ≤ (mempool.map fun t => t.amount.natAbs).sum := hfil
    _ < 9223372036854775808 := h

/-- The spec-side balance is bounded by the total magnitude on chain. -/
theorem balanceSpec_natAbs_le (chain : List Block) (k : Str) :
    (balanceSpec chain k).natAbs
      ≤ ((chainTxs chain).map fun t => t.amount.natAbs).sum := by
  unfold balanceSpec
  have h1 := natAbs_sum_le ((chainTxs chain).map fun t => txContrib t k)
  rw [List.map_map] at h1
  have h2 : ((chainTxs chain).map (Int.natAbs ∘ fun t => txContrib t k)).sum
      ≤ ((chainTxs chain).map fun t => t.amount.natAbs).sum :=
    List.sum_le_sum fun t _ => txContrib_natAbs t k
  omega

/-- The spec-side pending total is bounded by the total magnitude in
the mempool. -/
theorem pendingSpec_natAbs_le (mempool : List Transaction)
    (tx : Transaction) :
    (pendingSpec mempool tx).natAbs
      ≤ (mempool.map fun t => t.amount.natAbs).sum := by
  unfold pendingSpec
  have h1 := natAbs_sum_le ((mempool.filter fun t =>
      asciiLower (trimStr t.from_)
        == asciiLower (uniLower (trimStr tx.from_))).map Transaction.amount)
  rw [List.map_map] at h1
  have h2 := sum_map_filter_le mempool
    (fun t => asciiLower (trimStr t.from_)
      == asciiLower (uniLower (trimStr tx.from_)))
    (fun t => t.amount.natAbs)
  have h3 : ((mempool.filter fun t => asciiLower (trimStr t.from_)
      == asciiLower (uniLower (trimStr tx.from_))).map
        (Int.natAbs ∘ Transaction.amount)).sum
      = ((mempool.filter fun t => asciiLower (trimStr t.from_)
      == asciiLower (uniLower (trimStr tx.from_))).map
        fun t => t.amount.natAbs).sum := rfl
  omega

/-- C6 (amended). For a `submittx` request with a valid signature,
positive amount, and a (trimmed, lowercased) sender other than
`"coinbase"`, and total amount magnitudes on chain plus in the mempool
below `2^63` (no `i64` overflow): the daemon replies insufficient-funds
and leaves the mempool unchanged exactly when the sender's on-chain
balance minus the pending mempool amounts whose trimmed `from` is
ASCII-case-insensitively equal to the transaction's trimmed lowercased
`from` is less than the transaction's amount; otherwise it appends the
transaction and replies ok. -/
theorem submittx_insufficient_iff (chain : List Block)
    (mempool : List Transaction) (tx : Transaction)
    (hamt : 0 < tx.amount) (hfrom : normKey tx.from_ ≠ coinbaseStr)
    (hbound : ((chainTxs chain).map fun t => t.amount.natAbs).sum
        + (mempool.map fun t => t.amount.natAbs).sum
        < 9223372036854775808) :
    (submitTx true chain mempool tx = (TxResp.insufficientFunds, mempool) ↔
      balanceSpec chain (normKey tx.from_) - pendingSpec mempool tx < tx.amount) ∧
    (¬ balanceSpec chain (normKey tx.from_) - pendingSpec mempool tx < tx.amount →
      submitTx true chain mempool tx = (TxResp.okTx, mempool ++ [tx])) := by
  unfold submitTx
  rw [if_neg (by decide)]
  rw [if_neg (by omega)]
  dsimp only
  rw [chainBalances_eq_balanceSpec chain (normKey tx.from_) (by omega),
    pendingOutgoing_eq_pendingSpec mempool tx (by omega)]
  have hb1 := balanceSpec_natAbs_le chain (normKey tx.from_)
  have hb2 := pendingSpec_natAbs_le mempool tx
  have hb3 := Int.natAbs_sub_le (balanceSpec chain (normKey tx.from_))
    (pendingSpec mempool tx)
  rw [wrap64_eq_self
    (balanceSpec chain (normKey tx.from_) - pendingSpec mempool tx)
    (by omega)]
  by_cases hlt :
      balanceSpec chain (normKey tx.from_) - pendingSpec mempool tx < tx.amount
  · rw [if_pos ⟨hfrom, hlt⟩]
    exact ⟨⟨fun _ => hlt, fun _ => rfl⟩, fun hn => absurd hlt hn⟩
  · rw [if_neg fun hcon => hlt hcon.2]
    refine ⟨⟨fun h => ?_, fun h => absurd h hlt⟩, fun _ => rfl⟩
    cases h

/-- Witness for C6's amended theorem: a sender with no on-chain balance
is rejected. -/
theorem submittx_insufficient_iff_witness :
    submitTx true [] [] pennilessTx = (TxResp.insufficientFunds, []) :=
  (submittx_insufficient_iff [] [] pennilessTx (by decide) (by decide)
    (by decide)).1.mpr (by decide)

/-- C6 (counterexample). The original claim fails for a non-ASCII
sender: for the uppercase sender `É` (positive amount, sender key `é`
distinct from `"coinbase"`), the chain funds `é` with 10 and the
mempool holds a pending entry of 6 from `É`, so the claim's
same-lowercased-sender sum leaves `10 - 6 = 4 < 5` and predicts
`rejected: insufficient funds` with the mempool unchanged — but the
code's `eq_ignore_ascii_case` pending filter does not match `É`
against `é` (ASCII folding leaves both unchanged), computes `10 - 0`,
appends the transaction and replies ok. -/
theorem submittx_unicode_sender_counterexample :
    0 < accentTx.amount ∧
    normKey accentTx.from_ ≠ coinbaseStr ∧
    balanceSpec [fundBlock] (normKey accentTx.from_)
        - pendingLowerSpec [pendingE] accentTx < accentTx.amount ∧
    submitTx true [fundBlock] [pendingE] accentTx
        = (TxResp.okTx, [pendingE, accentTx]) := by
  exact ⟨by decide, by decide, by decide, by decide⟩

/-! ### C7: `submitblock` and the daemon's mempool -/

/-- C7 (amended). The daemon's `submitblock` handler never touches the
daemon's mempool — also when it accepts the block. Removal of included
transactions by signature happens only in the miner's local mempool
copy (`miner.rs`), not in the daemon. -/
theorem submitblock_mempool_unchanged (H : HashFn) (V : Transaction → Bool)
    (bc : Blockchain) (mempool : List Transaction) (block : Block) :
    (submitBlock H V bc mempool block).2.2 = mempool := by
  unfold submitBlock
  dsimp only
  split
  · split
    · rfl
    · split
      · rfl
      · split
        · rfl
        · rfl
  · split
    · rfl
    · split
      · rfl
      · rfl

/-- C7 (counterexample). A concrete accepted `submitblock`: the reply is
ok and the block is appended, the accepted block contains a transaction
with signature `"sig1"`, the daemon's mempool contains an entry with the
same signature — and that entry is still in the mempool afterwards. -/
theorem submitblock_keeps_matching_mempool_entry :
    (submitBlock hashZeros sigNever chain0 [mempoolTx1] submittedBlock1).1
        = BlockResp.okBlock ∧
    (submitBlock hashZeros sigNever chain0 [mempoolTx1] submittedBlock1).2.1.chain
        = chain0.chain ++ [submittedBlock1] ∧
    (submitBlock hashZeros sigNever chain0 [mempoolTx1] submittedBlock1).2.2
        = [mempoolTx1] ∧
    mempoolTx1.signature = coinbaseTx1.signature ∧
    coinbaseTx1 ∈ submittedBlock1.transactions := by
  refine ⟨?_, ?_, ?_, by decide, by decide⟩ <;> rfl

/-! ### C8: `load_config` with a missing config file -/

/-- C8. When the config file does not exist, `load_config` fails with
the "reading config file" error instead of writing defaults: the first
`fs::read_to_string(&path)?` propagates the `NotFound` error before the
`match` handling `ErrorKind::NotFound` (which would write defaults) is
reached; that branch never runs for any file state. -/
theorem loadConfig_missing_file_errors (parse : Str → Option Config)
    (walletPathOk : Str → Bool) (defaults : Config) :
    loadConfig none parse walletPathOk defaults
        = (Except.error ConfigErr.readFailed, false) ∧
    ∀ file, (loadConfig file parse walletPathOk defaults).2 = false := by
  refine ⟨rfl, ?_⟩
  intro file
  unfold loadConfig
  cases file with
  | none => rfl
  | some data =>
    dsimp only
    cases hp : parse data with
    | none => rfl
    | some cfg =>
      dsimp only
      split
      · rfl
      · rfl

/-! ### C9: non-emptiness of the chain and the unguarded tip access -/

/-- C9. Every chain state reachable through `Blockchain::new`,
`load_from_file`, `add_block`/`add_block_skip_pow` and the sync task's
strictly-longer whole-chain replacement is non-empty, so the
`bc.chain.last().unwrap()` in the daemon's `submitshare` handler has a
tip to return and cannot panic. -/
theorem reachable_chain_tip_exists (H : HashFn) (V : Transaction → Bool)
    (bc : Blockchain) (h : ReachableChain H V bc) :
    bc.chain.getLast?.isSome = true := by
  have hne : bc.chain ≠ [] := by
    induction h with
    | new => simp [newBlockchain]
    | load parsed bc2 hl =>
      unfold loadParsed at hl
      split at hl
      · injection hl with h2
        rw [← h2]
        exact loadedChain_ne_nil H parsed
      · cases hl
    | add bc2 block d skip hr ih =>
      unfold addBlockSkipPow
      split
      · simp
      · exact ih
    | sync bc2 nc hr hlen ih =>
      dsimp only
      intro hcon
      rw [hcon] at hlen
      simp at hlen
  exact List.getLast?_isSome.mpr hne

/-- Witness for C9 at the freshly constructed chain. -/
theorem reachable_chain_tip_exists_witness :
    (newBlockchain hashEmpty).chain.getLast?.isSome = true :=
  reachable_chain_tip_exists hashEmpty sigNever (newBlockchain hashEmpty)
    ReachableChain.new

/-! ### C10: atomicity of `add_block` / `add_block_skip_pow` -/

/-- C10. Appending is atomic: when `add_block_skip_pow` (and hence
`add_block`) returns `false` the chain state is exactly as before, and
when it returns `true` the new state is the old chain with exactly the
candidate appended at the end and the same `target_block_time`. -/
theorem addBlockSkipPow_atomic (H : HashFn) (V : Transaction → Bool)
    (bc : Blockchain) (block : Block) (difficulty : Nat) (skipPow : Bool) :
    ((addBlockSkipPow H V bc block difficulty skipPow).2 = true →
      (addBlockSkipPow H V bc block difficulty skipPow).1.chain
          = bc.chain ++ [block] ∧
      (addBlockSkipPow H V bc block difficulty skipPow).1.target_block_time
          = bc.target_block_time) ∧
    ((addBlockSkipPow H V bc block difficulty skipPow).2 = false →
      (addBlockSkipPow H V bc block difficulty skipPow).1 = bc) := by
  unfold addBlockSkipPow
  split
  · exact ⟨fun _ => ⟨rfl, rfl⟩, fun h => Bool.noConfusion h⟩
  · exact ⟨fun h => Bool.noConfusion h, fun _ => rfl⟩

/-- Witness for C10 at a concrete rejected candidate. -/
theorem addBlockSkipPow_atomic_witness :
    (addBlockSkipPow hashEmpty sigNever (newBlockchain hashEmpty) tipBlock0 1
        false).1 = newBlockchain hashEmpty :=
  (addBlockSkipPow_atomic hashEmpty sigNever (newBlockchain hashEmpty)
    tipBlock0 1 false).2 (by decide)
